import Mathlib

/-!
Verification development for the Aadhaar-card OCR field-extraction core
(`backend/app.py`).  The extractors are shallowly embedded over
`Str := List Char`; the specific regular expressions of the source are
translated into explicit scanning functions with Python `re` semantics
(leftmost match, ordered alternation, greedy quantifiers, word
boundaries).  Character classes (`\d`, `\s`, `\w`) are modelled over the
two scripts handled by the source, Latin and Devanagari (the source's
explicit `ऀ-ॿ` ranges); `str.splitlines` is modelled as
splitting on `'\n'` (the OCR front end removes `'\r'`, and the exotic
Unicode line breaks are outside the modelled character domain).
-/

/-- Strings are modelled as lists of characters. -/
abbrev Str := List Char

/-- Numeric code point of a character. -/
def cN (c : Char) : Nat := c.toNat

/-- ASCII Latin letter, the `A-Za-z` class of the source regexes. -/
def isLatin (c : Char) : Bool := (65 ≤ cN c && cN c ≤ 90) || (97 ≤ cN c && cN c ≤ 122)

/-- Character of the Devanagari block, the `ऀ-ॿ` class of the source. -/
def isDev (c : Char) : Bool := 0x900 ≤ cN c && cN c ≤ 0x97F

/-- ASCII decimal digit `0-9`. -/
def isAsciiDigit (c : Char) : Bool := 48 ≤ cN c && cN c ≤ 57

/-- Devanagari digit `०-९` (U+0966 to U+096F), matched by Python's `\d`. -/
def isDevDigit (c : Char) : Bool := 0x966 ≤ cN c && cN c ≤ 0x96F

/-- Model of Python's `\d` over the scripts in scope. -/
def isPyDigit (c : Char) : Bool := isAsciiDigit c || isDevDigit c

/-- Model of Python's `\s` (ASCII whitespace). -/
def isPySpace (c : Char) : Bool :=
  c = ' ' || c = '\t' || c = '\n' || c = '\x0d' || c = '\x0b' || c = '\x0c'

/-- Model of Python's `\w` over the scripts in scope: ASCII letters and
digits, underscore, and the whole Devanagari block (whose letters and
digits are Unicode word characters). -/
def isPyWord (c : Char) : Bool := isLatin c || isAsciiDigit c || c = '_' || isDev c

/-- Python `str.strip`: remove leading and trailing whitespace. -/
def pyStrip (s : Str) : Str :=
  ((s.dropWhile isPySpace).reverse.dropWhile isPySpace).reverse

/-- Accumulator-based worker for `splitWs`; `acc` is the current token reversed. -/
def splitWsAux (acc : Str) : Str → List Str
  | [] => if acc = [] then [] else [acc.reverse]
  | c :: cs =>
    if isPySpace c then
      if acc = [] then splitWsAux [] cs else acc.reverse :: splitWsAux [] cs
    else splitWsAux (c :: acc) cs

/-- Python `str.split()` with no argument: split on whitespace runs,
producing only nonempty tokens. -/
def splitWs (s : Str) : List Str := splitWsAux [] s

/-- Python `" ".join`. -/
def joinSpace : List Str → Str
  | [] => []
  | t :: ts => match ts with
    | [] => t
    | _ :: _ => t ++ ' ' :: joinSpace ts

/-- Split on `'\n'` (model of `str.splitlines`; see the header comment). -/
def splitNL : Str → List Str
  | [] => [[]]
  | c :: cs =>
    if c = '\n' then [] :: splitNL cs
    else match splitNL cs with
      | [] => [[c]]
      | t :: ts => (c :: t) :: ts

/-- The list comprehension `[l.strip() for l in t.splitlines() if l.strip()]`
used by both name-extraction strategies. -/
def cleanLines (t : Str) : List Str := ((splitNL t).map pyStrip).filter (fun l => l ≠ [])

/-- ASCII lower-casing, the effect of Python's case folding on the
character set that reaches the cleaner (Devanagari is uncased). -/
def toLowerC (c : Char) : Char :=
  if 65 ≤ cN c && cN c ≤ 90 then Char.ofNat (cN c + 32) else c

/-- ASCII upper-casing (Python `str.upper` on the in-scope character set). -/
def toUpperC (c : Char) : Char :=
  if 97 ≤ cN c && cN c ≤ 122 then Char.ofNat (cN c - 32) else c

/-- Cased character (CPython's `Py_UNICODE_ISCASED`) over the in-scope
character set: only Latin letters are cased. -/
def isCasedC (c : Char) : Bool := isLatin c

/-- Worker of Python `str.title`: title-case a character after an uncased
character, lower-case it after a cased one. -/
def titleGo (prevCased : Bool) : Str → Str
  | [] => []
  | c :: cs => (if prevCased then toLowerC c else toUpperC c) :: titleGo (isCasedC c) cs

/-- Python `str.title` (title case of a Latin character is its upper case). -/
def pyTitle (s : Str) : Str := titleGo false s

/-- The test `re.fullmatch(r"[A-Za-z]\.", tok)`: an initial like `K.`. -/
def isInitialTok (t : Str) : Bool :=
  match t with
  | [a, b] => isLatin a && b = '.'
  | _ => false

/-- Per-token case normalisation of the cleaner: Latin-containing tokens
are title-cased, initials are upper-cased, other tokens pass through. -/
def caseTok (t : Str) : Str :=
  if t.any isLatin then
    if isInitialTok t then t.map toUpperC else pyTitle t
  else t

/-- Case-insensitive literal match: `p` is a lower-case pattern; returns
the remainder of `cs` after consuming a case-insensitive occurrence of
`p` at the front. -/
def ciEat : Str → Str → Option Str
  | [], cs => some cs
  | _ :: _, [] => none
  | p :: ps, c :: cs => if toLowerC c = p then ciEat ps cs else none

/-- The label alternation `Name|NAME|नाम|नाव|DOB|Date of Birth|DOB:` of the
cleaner, compiled with `IGNORECASE`, as lower-cased literals in source
order (the two case variants of `Name` collapse; `DOB:` is listed for
fidelity although the earlier `DOB` alternative shadows it). -/
def labelAlts : List Str :=
  [['n','a','m','e'],
   ['n','a','m','e'],
   [Char.ofNat 0x928, Char.ofNat 0x93E, Char.ofNat 0x92E],
   [Char.ofNat 0x928, Char.ofNat 0x93E, Char.ofNat 0x935],
   ['d','o','b'],
   ['d','a','t','e',' ','o','f',' ','b','i','r','t','h'],
   ['d','o','b',':']]

/-- Characters consumed by the `[:\s\-]*` tail of the label regex. -/
def isLabelPunct (c : Char) : Bool := c = ':' || isPySpace c || c = '-'

/-- Check the trailing word boundary after a matched alternative whose last
character has wordness `lastW`: the boundary holds at end of string iff the
last character is a word character, and between two characters iff their
wordness differs. -/
def boundaryAfter (lastW : Bool) : Str → Bool
  | [] => lastW
  | c :: _ => lastW != isPyWord c

/-- Try the alternatives of the label regex, in order, at the current
position; on success return the wordness of the last consumed character
(for the continued scan) and the remaining input after the matched token
and its `[:\s\-]*` tail. -/
def tryLabel (alts : List Str) (cs : Str) : Option (Bool × Str) :=
  match alts with
  | [] => none
  | p :: ps =>
    match ciEat p cs with
    | some rest =>
      if boundaryAfter (isPyWord (p.getLastD ' ')) rest then
        let rest2 := rest.dropWhile isLabelPunct
        let lastW := if rest.dropWhile isLabelPunct = rest
          then isPyWord (p.getLastD ' ') else false
        some (lastW, rest2)
      else tryLabel ps cs
    | none => tryLabel ps cs

/-- Fuel-driven scanner for
`re.sub(r"\b(Name|NAME|नाम|नाव|DOB|Date of Birth|DOB:)\b[:\s\-]*", "", s, IGNORECASE)`:
at each position with a preceding word boundary, try the alternation and
drop the match, otherwise keep the character.  The fuel only serves
termination; one unit is spent per position and every match consumes at
least one character, so `length + 1` units always suffice. -/
def rlGo : Nat → Bool → Str → Str
  | 0, _, cs => cs
  | _ + 1, _, [] => []
  | fuel + 1, prevW, c :: cs =>
    if prevW then c :: rlGo fuel (isPyWord c) cs
    else match tryLabel labelAlts (c :: cs) with
      | some (w, rest) => rlGo fuel w rest
      | none => c :: rlGo fuel (isPyWord c) cs

/-- Step 3 of the cleaner: remove embedded label tokens. -/
def removeLabels (s : Str) : Str := rlGo (s.length + 1) false s

/-- The field alternation `MALE|FEMALE|VID|Aadhaar|AADHAAR|UID`, compiled
with `IGNORECASE`, as lower-cased literals in source order. -/
def fieldAlts : List Str :=
  [['m','a','l','e'],
   ['f','e','m','a','l','e'],
   ['v','i','d'],
   ['a','a','d','h','a','a','r'],
   ['a','a','d','h','a','a','r'],
   ['u','i','d']]

/-- Does some field alternative match at this position, with its trailing
word boundary?  (Every alternative starts and ends with a letter, so the
leading boundary is exactly `¬ prevW`, checked by the caller.) -/
def fieldMatchAt (cs : Str) : Bool :=
  (fieldAlts.any fun p =>
    match ciEat p cs with
    | some rest => boundaryAfter true rest
    | none => false)

/-- Scanner for `re.sub(r"\b(MALE|FEMALE|VID|Aadhaar|AADHAAR|UID)\b.*$", "", s, IGNORECASE)`:
cut the string at the first boundary-delimited field token (`.*$` swallows
the rest; the input here never contains `'\n'`, being the output of a
`" ".join`, so `.` reaches the end of the string). -/
def truncGo (prevW : Bool) : Str → Str
  | [] => []
  | c :: cs =>
    if !prevW && fieldMatchAt (c :: cs) then []
    else c :: truncGo (isPyWord c) cs

/-- Character kept verbatim by step 6 of the cleaner
(`[^A-Za-zऀ-ॿ\s\.\'\-]` is replaced by a space). -/
def keepC (c : Char) : Bool :=
  isLatin c || isDev c || isPySpace c || c = '.' || c = '\'' || c = '-'

/-- Step 6 of the cleaner: replace every disallowed character by a space. -/
def sanitizeC (s : Str) : Str := s.map (fun c => if keepC c then c else ' ')

/-- Worker for `re.sub(r"\s{2,}", " ", s)`: `pending = some (c, multi)`
while inside a whitespace run that started with `c` and has reached length
two (`multi`) or not. A run of length one is kept verbatim, a longer run
becomes a single space. -/
def collapseAux (pending : Option (Char × Bool)) : Str → Str
  | [] =>
    match pending with
    | none => []
    | some (c, multi) => if multi then [' '] else [c]
  | x :: xs =>
    match pending with
    | none =>
      if isPySpace x then collapseAux (some (x, false)) xs
      else x :: collapseAux none xs
    | some (c, multi) =>
      if isPySpace x then collapseAux (some (c, true)) xs
      else (if multi then [' '] else [c]) ++ x :: collapseAux none xs

/-- Collapse whitespace runs of length at least two into a single space. -/
def collapseWs (s : Str) : Str := collapseAux none s

/-- The test `re.fullmatch(r"[A-Za-z]{1,2}", parts[0])` for a 1-2 letter
garbage token. -/
def isShortLatin (t : Str) : Bool :=
  (t.length = 1 || t.length = 2) && t.all isLatin

/-- Step 4 of the cleaner: with more than one token, drop a leading 1-2
letter garbage token (`parts = parts[1:]`). -/
def dropShortFirst (parts : List Str) : List Str :=
  match parts with
  | p :: q :: rest => if isShortLatin p then q :: rest else p :: q :: rest
  | other => other

/-- The cleaner `clean_extracted_name` of the source, step for step. -/
def clean_extracted_name (raw : Str) : Option Str :=
  if raw = [] then none
  else
    let s1 := pyStrip raw
    let s2 := s1.dropWhile (fun c => !(isLatin c || isDev c))
    let s3 := removeLabels s2
    let parts := splitWs s3
    let parts2 := dropShortFirst parts
    let s5 := joinSpace parts2
    let s6 := pyStrip (truncGo false s5)
    let s7 := sanitizeC s6
    let s8 := pyStrip (collapseWs s7)
    if s8 = [] then none
    else
      let res := joinSpace ((splitWs s8).map caseTok)
      if (splitWs res).length < 2 then none else some res

/-- Match four consecutive `\d` digits at the front, returning them and
the remainder. -/
def digits4 : Str → Option (Str × Str)
  | a :: b :: c :: d :: r =>
    if isPyDigit a && isPyDigit b && isPyDigit c && isPyDigit d
    then some ([a, b, c, d], r) else none
  | _ => none

/-- Greedy `\s?`: consume one whitespace character if present.  (The
pattern continues with `\d{4}`, which also fails on a whitespace
character, so declining the optional character never helps and the greedy
choice is final.) -/
def optWs1 : Str → (Str × Str)
  | [] => ([], [])
  | c :: cs => if isPySpace c then ([c], cs) else ([], c :: cs)

/-- Match `\d{4}\s?\d{4}\s?\d{4}` at the current position, returning the
matched span. -/
def matchAadhaarAt (cs : Str) : Option Str :=
  match digits4 cs with
  | none => none
  | some (g1, r1) =>
    let (w1, r2) := optWs1 r1
    match digits4 r2 with
    | none => none
    | some (g2, r3) =>
      let (w2, r4) := optWs1 r3
      match digits4 r4 with
      | none => none
      | some (g3, _) => some (g1 ++ w1 ++ g2 ++ w2 ++ g3)

/-- Leftmost search for the Aadhaar pattern (`re.search` tries the
positions left to right). -/
def searchAadhaar : Str → Option Str
  | [] => none
  | c :: cs =>
    match matchAadhaarAt (c :: cs) with
    | some sp => some sp
    | none => searchAadhaar cs

/-- The `extract_aadhar` function of the source: search for
`(\d{4}\s?\d{4}\s?\d{4})`, strip interior whitespace, keep only a
12-digit result, and regroup it as `#### #### ####`. -/
def extract_aadhar (text : Str) : Option Str :=
  match searchAadhaar text with
  | none => none
  | some sp =>
    let digits := sp.filter (fun c => !isPySpace c)
    if digits.length ≠ 12 then none
    else some (digits.take 4 ++ ' ' :: (digits.drop 4).take 4 ++ ' ' :: (digits.drop 8).take 4)

/-- Date separator class `[\/\-]`. -/
def isDateSep (c : Char) : Bool := c = '/' || c = '-'

/-- Match `\d{2}[\/\-]\d{2}[\/\-]\d{4}` at the current position. -/
def matchDateAt (cs : Str) : Option Str :=
  match cs with
  | a :: b :: s1 :: c :: d :: s2 :: e :: f :: g :: h :: _ =>
    if isPyDigit a && isPyDigit b && isDateSep s1 && isPyDigit c && isPyDigit d &&
       isDateSep s2 && isPyDigit e && isPyDigit f && isPyDigit g && isPyDigit h
    then some [a, b, s1, c, d, s2, e, f, g, h] else none
  | _ => none

/-- Leftmost search for the date pattern. -/
def searchDate : Str → Option Str
  | [] => none
  | c :: cs =>
    match matchDateAt (c :: cs) with
    | some sp => some sp
    | none => searchDate cs

/-- The `extract_dob` function of the source: first match of
`(\d{2}[\/\-]\d{2}[\/\-]\d{4})`, verbatim. -/
def extract_dob (text : Str) : Option Str := searchDate text

/-- First character class of a name word,
`[A-Za-zऀ-ॿ]` (includes Devanagari digits). -/
def isL0 (c : Char) : Bool := isLatin c || isDev c

/-- Continuation class of a name word, `[A-Za-zऀ-ॿ'\-\.]`. -/
def isL1 (c : Char) : Bool := isL0 c || c = '\'' || c = '-' || c = '.'

/-- Match the two-word core `([L0][L1]{1,})\s+([L0][L1]{1,})` at the
current position, returning the matched length.  Within the core the
greedy choices are final: word characters are never whitespace, so
backtracking a word or the whitespace run only re-offers a failing
character class. -/
def tryWW (cs : Str) : Option Nat :=
  match cs with
  | c :: rest =>
    if isL0 c then
      let n1 := 1 + (rest.takeWhile isL1).length
      if n1 < 2 then none
      else
        let rest1 := (c :: rest).drop n1
        let w := (rest1.takeWhile isPySpace).length
        if w = 0 then none
        else
          match rest1.drop w with
          | c2 :: rest2 =>
            if isL0 c2 then
              let n2 := 1 + (rest2.takeWhile isL1).length
              if n2 < 2 then none else some (n1 + w + n2)
            else none
          | [] => none
    else none
  | [] => none

/-- Backtracking over the optional numeric prefix `(?:\d+\s*)?`: try the
greedy split (all `d` digits plus the whitespace run), then shorter digit
runs (after `k < d` digits the next character is a digit, so `\s*` is
empty), and finally skip the group. -/
def twoWordPre (cs : Str) (d : Nat) : Nat → Option Nat
  | 0 => tryWW cs
  | k + 1 =>
    if k + 1 = d then
      let w := ((cs.drop d).takeWhile isPySpace).length
      match tryWW (cs.drop (d + w)) with
      | some m => some (d + w + m)
      | none => twoWordPre cs d k
    else
      match tryWW (cs.drop (k + 1)) with
      | some m => some (k + 1 + m)
      | none => twoWordPre cs d k

/-- `re.match` of the two-word line pattern
`(?:\d+\s*)?([A-Za-zऀ-ॿ][A-Za-zऀ-ॿ'\-\.]{1,})\s+([A-Za-zऀ-ॿ][A-Za-zऀ-ॿ'\-\.]{1,})`
at the start of a line, returning the length of `group(0)`. -/
def twoWordMatch (line : Str) : Option Nat :=
  let d := (line.takeWhile isPyDigit).length
  twoWordPre line d d

/-- The substitution `re.sub(r"^\d+\s+", "", cand)`: strip a leading digit
run followed by a whitespace run (the whitespace is required). -/
def stripLeadNum (s : Str) : Str :=
  let ds := s.takeWhile isPyDigit
  if ds = [] then s
  else
    match s.drop ds.length with
    | c :: rest => if isPySpace c then rest.dropWhile isPySpace else s
    | [] => s

/-- Candidate preparation of the DOB-anchored strategy:
`re.sub(r"^[^\wऀ-ॿ]+", "", cand)` then `re.sub(r"^\d+\s+", "", cand)`. -/
def prepCand (p : Str) : Str :=
  stripLeadNum (p.dropWhile (fun c => !(isPyWord c || isDev c)))

/-- Worker of `find_by_dob_block`: walk the cleaned lines remembering the
previous line; on a line containing the date pattern (`i > 0` in the
source corresponds to `prev` being present), prepare and clean the
previous line, returning the first non-null cleaning. -/
def dobGo (prev : Option Str) : List Str → Option Str
  | [] => none
  | l :: rest =>
    if (searchDate l).isSome then
      match prev with
      | some p =>
        match clean_extracted_name (prepCand p) with
        | some c => some c
        | none => dobGo (some l) rest
      | none => dobGo (some l) rest
    else dobGo (some l) rest

/-- The nested `find_by_dob_block` of `extract_name`. -/
def find_by_dob_block (t : Str) : Option Str := dobGo none (cleanLines t)

/-- The two-word fallback loop of `extract_name`: for each line matching
the two-word pattern, strip a numeric prefix from `group(0)` and clean;
return the first non-null cleaning. -/
def twoWordScan : List Str → Option Str
  | [] => none
  | l :: rest =>
    match twoWordMatch l with
    | some n =>
      match clean_extracted_name (stripLeadNum (l.take n)) with
      | some c => some c
      | none => twoWordScan rest
    | none => twoWordScan rest

/-- The `extract_name` function of the source.  `text_crop` is the
defaulted parameter; Python's `if text_crop:` is falsy both for `None`
and for an empty string. -/
def extract_name (text : Str) (text_crop : Option Str := none) : Option Str :=
  let fromCrop :=
    match text_crop with
    | none => none
    | some c =>
      if c = [] then none
      else
        match find_by_dob_block c with
        | some n => some n
        | none => twoWordScan (cleanLines c)
  match fromCrop with
  | some n => some n
  | none =>
    match find_by_dob_block text with
    | some n => some n
    | none => twoWordScan (cleanLines text)

/-- Exceptions that the extraction functions can raise when handed `None`
instead of a string (standard Python semantics: `re.search(p, None)` is a
`TypeError`, `None.splitlines()` an `AttributeError`). -/
inductive PyErr where
  | typeError : PyErr
  | attributeError : PyErr
deriving DecidableEq, Repr

/-- Calling `extract_aadhar` with an optional transcript: `re.search` on
`None` raises `TypeError`. -/
def extract_aadhar_py : Option Str → Except PyErr (Option Str)
  | none => .error .typeError
  | some t => .ok (extract_aadhar t)

/-- Calling `extract_dob` with an optional transcript. -/
def extract_dob_py : Option Str → Except PyErr (Option Str)
  | none => .error .typeError
  | some t => .ok (extract_dob t)

/-- Calling `extract_name` with optional transcripts: the crop strategies
run first and can succeed without touching `text`; only when the full-text
strategies are reached does `None.splitlines()` raise. -/
def extract_name_py (text : Option Str) (text_crop : Option Str) : Except PyErr (Option Str) :=
  let fromCrop :=
    match text_crop with
    | none => none
    | some c =>
      if c = [] then none
      else
        match find_by_dob_block c with
        | some n => some n
        | none => twoWordScan (cleanLines c)
  match fromCrop with
  | some n => .ok (some n)
  | none =>
    match text with
    | none => .error .attributeError
    | some t =>
      .ok (match find_by_dob_block t with
        | some n => some n
        | none => twoWordScan (cleanLines t))

/-- First-some combinator; mirrors the fallback chains of `extract_name`. -/
def orO (a b : Option Str) : Option Str :=
  match a with
  | some x => some x
  | none => b

/-- The string starts with a Latin or Devanagari letter. -/
def headIsLetter (r : Str) : Bool := isL0 (r.headD ' ')

/-- The first whitespace token of the string is not a 1-2 letter Latin
fragment (the kind step 4 of the cleaner deletes). -/
def firstTokNotShort (r : Str) : Bool := !isShortLatin ((splitWs r).headD [])

/-- Declarative reading of the DOB-anchored scan: walk the (previous line,
line) pairs in order and return the first non-null cleaning of the
predecessor of a date-bearing line. -/
def dobBlockSpec (t : Str) : Option Str :=
  ((cleanLines t).zip (cleanLines t).tail).findSome?
    (fun pq => if (searchDate pq.2).isSome then clean_extracted_name (prepCand pq.1) else none)

/-! ### Character-level lemmas -/

theorem cN_ofNat (n : Nat) (h : n < 55296) : cN (Char.ofNat n) = n := by
  unfold Char.ofNat
  rw [dif_pos (Or.inl h)]
  simp only [Char.ofNatAux, cN, Char.toNat]
  show (BitVec.ofNatLt n _).toNat = n
  simp [BitVec.toNat_ofNatLt]

theorem char_eq_iff_cN (a b : Char) : a = b ↔ cN a = cN b := by
  constructor
  · intro h; rw [h]
  · intro h; exact Char.ext (UInt32.ext_iff.mpr h)

theorem isLatin_iff (c : Char) :
    isLatin c = true ↔ (65 ≤ cN c ∧ cN c ≤ 90) ∨ (97 ≤ cN c ∧ cN c ≤ 122) := by
  simp [isLatin]

theorem isDev_iff (c : Char) : isDev c = true ↔ 0x900 ≤ cN c ∧ cN c ≤ 0x97F := by
  simp [isDev]

theorem isAsciiDigit_iff (c : Char) : isAsciiDigit c = true ↔ 48 ≤ cN c ∧ cN c ≤ 57 := by
  simp [isAsciiDigit]

theorem isPyDigit_iff (c : Char) :
    isPyDigit c = true ↔ (48 ≤ cN c ∧ cN c ≤ 57) ∨ (0x966 ≤ cN c ∧ cN c ≤ 0x96F) := by
  simp [isPyDigit, isAsciiDigit, isDevDigit]

theorem isPySpace_iff (c : Char) :
    isPySpace c = true ↔ cN c = 32 ∨ cN c = 9 ∨ cN c = 10 ∨ cN c = 13 ∨ cN c = 11 ∨ cN c = 12 := by
  simp only [isPySpace, char_eq_iff_cN, Bool.or_eq_true, decide_eq_true_eq,
    show cN ' ' = 32 from rfl, show cN '\t' = 9 from rfl, show cN '\n' = 10 from rfl,
    show cN '\x0d' = 13 from rfl, show cN '\x0b' = 11 from rfl, show cN '\x0c' = 12 from rfl]
  tauto

theorem isPyWord_iff (c : Char) :
    isPyWord c = true ↔ (65 ≤ cN c ∧ cN c ≤ 90) ∨ (97 ≤ cN c ∧ cN c ≤ 122) ∨
      (48 ≤ cN c ∧ cN c ≤ 57) ∨ cN c = 95 ∨ (0x900 ≤ cN c ∧ cN c ≤ 0x97F) := by
  simp only [isPyWord, isLatin, isAsciiDigit, isDev, char_eq_iff_cN, Bool.or_eq_true,
    Bool.and_eq_true, decide_eq_true_eq, show cN '_' = 95 from rfl]
  tauto

theorem keepC_iff (c : Char) :
    keepC c = true ↔ (65 ≤ cN c ∧ cN c ≤ 90) ∨ (97 ≤ cN c ∧ cN c ≤ 122) ∨
      (0x900 ≤ cN c ∧ cN c ≤ 0x97F) ∨ isPySpace c = true ∨ cN c = 46 ∨ cN c = 39 ∨ cN c = 45 := by
  simp only [keepC, isLatin, isDev, char_eq_iff_cN, Bool.or_eq_true, Bool.and_eq_true,
    decide_eq_true_eq, show cN '.' = 46 from rfl, show cN '\'' = 39 from rfl,
    show cN '-' = 45 from rfl]
  tauto

theorem cN_toLowerC (c : Char) :
    cN (toLowerC c) = if 65 ≤ cN c ∧ cN c ≤ 90 then cN c + 32 else cN c := by
  unfold toLowerC
  rcases Nat.lt_or_ge (cN c) 65 with h | h
  · rw [if_neg, if_neg] <;> simp <;> omega
  · rcases le_or_lt (cN c) 90 with h2 | h2
    · rw [if_pos, if_pos]
      · exact cN_ofNat _ (by omega)
      · omega
      · simp; omega
    · rw [if_neg, if_neg] <;> simp <;> omega

theorem cN_toUpperC (c : Char) :
    cN (toUpperC c) = if 97 ≤ cN c ∧ cN c ≤ 122 then cN c - 32 else cN c := by
  unfold toUpperC
  rcases Nat.lt_or_ge (cN c) 97 with h | h
  · rw [if_neg, if_neg] <;> simp <;> omega
  · rcases le_or_lt (cN c) 122 with h2 | h2
    · rw [if_pos, if_pos]
      · exact cN_ofNat _ (by omega)
      · omega
      · simp; omega
    · rw [if_neg, if_neg] <;> simp <;> omega

theorem isLatin_toLowerC (c : Char) : isLatin (toLowerC c) = isLatin c := by
  rw [Bool.eq_iff_iff, isLatin_iff, isLatin_iff, cN_toLowerC]
  split <;> omega

theorem isLatin_toUpperC (c : Char) : isLatin (toUpperC c) = isLatin c := by
  rw [Bool.eq_iff_iff, isLatin_iff, isLatin_iff, cN_toUpperC]
  split <;> omega

theorem toLowerC_toLowerC (c : Char) : toLowerC (toLowerC c) = toLowerC c := by
  rw [char_eq_iff_cN, cN_toLowerC (toLowerC c), cN_toLowerC c]
  split_ifs <;> omega

theorem toUpperC_toUpperC (c : Char) : toUpperC (toUpperC c) = toUpperC c := by
  rw [char_eq_iff_cN, cN_toUpperC (toUpperC c), cN_toUpperC c]
  split_ifs <;> omega

theorem toUpperC_dot_iff (c : Char) : toUpperC c = '.' ↔ c = '.' := by
  rw [char_eq_iff_cN, char_eq_iff_cN, cN_toUpperC, show cN '.' = 46 from rfl]
  split <;> omega

theorem toLowerC_dot_iff (c : Char) : toLowerC c = '.' ↔ c = '.' := by
  rw [char_eq_iff_cN, char_eq_iff_cN, cN_toLowerC, show cN '.' = 46 from rfl]
  split <;> omega

theorem isPySpace_toUpperC (c : Char) : isPySpace (toUpperC c) = isPySpace c := by
  rw [Bool.eq_iff_iff, isPySpace_iff, isPySpace_iff, cN_toUpperC]
  split <;> omega

theorem isPySpace_toLowerC (c : Char) : isPySpace (toLowerC c) = isPySpace c := by
  rw [Bool.eq_iff_iff, isPySpace_iff, isPySpace_iff, cN_toLowerC]
  split <;> omega

theorem keepC_toUpperC (c : Char) : keepC (toUpperC c) = keepC c := by
  rw [Bool.eq_iff_iff]
  simp only [keepC_iff, isPySpace_iff, cN_toUpperC]
  split_ifs <;> omega

theorem keepC_toLowerC (c : Char) : keepC (toLowerC c) = keepC c := by
  rw [Bool.eq_iff_iff]
  simp only [keepC_iff, isPySpace_iff, cN_toLowerC]
  split_ifs <;> omega

theorem isPyDigit_not_space {c : Char} (h : isPyDigit c = true) : isPySpace c = false := by
  cases hb : isPySpace c with
  | false => rfl
  | true =>
    exfalso
    rw [isPyDigit_iff] at h
    rw [isPySpace_iff] at hb
    omega

theorem keepC_not_digit {c : Char} (h : keepC c = true) : isAsciiDigit c = false := by
  cases hb : isAsciiDigit c with
  | false => rfl
  | true =>
    exfalso
    rw [keepC_iff] at h
    rw [isAsciiDigit_iff] at hb
    rcases h with h | h | h | h | h <;> first
      | omega
      | (rw [isPySpace_iff] at h; omega)

/-! ### List-level lemmas about the string helpers -/

theorem splitWsAux_nil (acc : Str) :
    splitWsAux acc [] = if acc = [] then [] else [acc.reverse] := rfl

theorem splitWsAux_cons (acc : Str) (c : Char) (cs : Str) :
    splitWsAux acc (c :: cs) =
      if isPySpace c then
        (if acc = [] then splitWsAux [] cs else acc.reverse :: splitWsAux [] cs)
      else splitWsAux (c :: acc) cs := rfl

theorem mem_dropWhile {p : Char → Bool} {c : Char} :
    ∀ {l : Str}, c ∈ l.dropWhile p → c ∈ l := by
  intro l
  induction l with
  | nil => intro h; simp at h
  | cons x xs ih =>
    intro h
    rw [List.dropWhile_cons] at h
    by_cases hx : p x = true
    · rw [if_pos hx] at h
      exact List.mem_cons_of_mem x (ih h)
    · rw [if_neg hx] at h
      exact h

theorem mem_pyStrip {c : Char} {s : Str} (h : c ∈ pyStrip s) : c ∈ s := by
  unfold pyStrip at h
  rw [List.mem_reverse] at h
  have h2 := mem_dropWhile h
  rw [List.mem_reverse] at h2
  exact mem_dropWhile h2

theorem joinSpace_cons2 (t u : Str) (ts : List Str) :
    joinSpace (t :: u :: ts) = t ++ ' ' :: joinSpace (u :: ts) := rfl

theorem mem_joinSpace {c : Char} :
    ∀ {toks : List Str}, c ∈ joinSpace toks → c = ' ' ∨ ∃ t ∈ toks, c ∈ t := by
  intro toks
  induction toks with
  | nil => intro h; simp [joinSpace] at h
  | cons t ts ih =>
    intro h
    cases ts with
    | nil =>
      simp only [joinSpace] at h
      exact Or.inr ⟨t, List.mem_singleton.mpr rfl, h⟩
    | cons u ts' =>
      rw [joinSpace_cons2, List.mem_append] at h
      rcases h with h | h
      · exact Or.inr ⟨t, List.mem_cons_self t _, h⟩
      · rcases List.mem_cons.mp h with h | h
        · exact Or.inl h
        · rcases ih h with h | ⟨v, hv, hc⟩
          · exact Or.inl h
          · exact Or.inr ⟨v, List.mem_cons_of_mem t hv, hc⟩

theorem joinSpace_append_single (y : Str) :
    ∀ (xs : List Str), xs ≠ [] → joinSpace (xs ++ [y]) = joinSpace xs ++ ' ' :: y := by
  intro xs
  induction xs with
  | nil => intro h; exact absurd rfl h
  | cons x xs ih =>
    intro _
    cases xs with
    | nil => rfl
    | cons u ts =>
      have h2 := ih (by simp)
      show joinSpace (x :: (u :: (ts ++ [y]))) = joinSpace (x :: u :: ts) ++ ' ' :: y
      rw [joinSpace_cons2 x u (ts ++ [y])]
      rw [show u :: (ts ++ [y]) = (u :: ts) ++ [y] from rfl, h2]
      rw [joinSpace_cons2]
      simp

theorem joinSpace_reverse :
    ∀ (toks : List Str), (joinSpace toks).reverse = joinSpace (toks.reverse.map List.reverse) := by
  intro toks
  induction toks with
  | nil => rfl
  | cons t ts ih =>
    cases ts with
    | nil => simp [joinSpace]
    | cons u ts' =>
      rw [joinSpace_cons2, List.reverse_append, List.reverse_cons]
      rw [List.append_assoc, List.singleton_append, ih]
      have hne : (((u :: ts').reverse).map List.reverse) ≠ [] := by simp
      rw [show ((t :: u :: ts').reverse).map List.reverse
            = ((u :: ts').reverse).map List.reverse ++ [t.reverse] by simp]
      rw [joinSpace_append_single _ _ hne]

theorem joinSpace_ne_nil {toks : List Str} (h : toks ≠ []) (h2 : ∀ t ∈ toks, t ≠ []) :
    joinSpace toks ≠ [] := by
  cases toks with
  | nil => exact absurd rfl h
  | cons t ts =>
    cases ts with
    | nil => exact h2 t (List.mem_cons_self _ _)
    | cons u ts' =>
      rw [joinSpace_cons2]
      intro hx
      rcases List.append_eq_nil.mp hx with ⟨_, h3⟩
      exact List.cons_ne_nil _ _ h3

theorem splitWsAux_tok :
    ∀ (t : Str) (acc cs : Str), (∀ c ∈ t, isPySpace c = false) →
      splitWsAux acc (t ++ cs) = splitWsAux (t.reverse ++ acc) cs := by
  intro t
  induction t with
  | nil => intro acc cs _; rfl
  | cons x xs ih =>
    intro acc cs h
    have hx : isPySpace x = false := h x (List.mem_cons_self _ _)
    rw [List.cons_append, splitWsAux_cons, if_neg (by simp [hx])]
    rw [ih (x :: acc) cs (fun c hc => h c (List.mem_cons_of_mem _ hc))]
    congr 1
    simp

theorem splitWs_joinSpace :
    ∀ (toks : List Str), (∀ t ∈ toks, t ≠ [] ∧ ∀ c ∈ t, isPySpace c = false) →
      splitWs (joinSpace toks) = toks := by
  intro toks
  induction toks with
  | nil => intro _; rfl
  | cons t ts ih =>
    intro h
    obtain ⟨ht, htc⟩ := h t (List.mem_cons_self _ _)
    cases ts with
    | nil =>
      show splitWsAux [] (joinSpace [t]) = [t]
      have h1 : joinSpace [t] = t ++ [] := by simp [joinSpace]
      rw [h1, splitWsAux_tok t [] [] htc, splitWsAux_nil]
      rw [if_neg (by simp [ht])]
      simp
    | cons u ts' =>
      show splitWsAux [] (joinSpace (t :: u :: ts')) = _
      rw [joinSpace_cons2, splitWsAux_tok t [] _ htc]
      rw [List.append_nil, splitWsAux_cons, if_pos (by rfl)]
      rw [if_neg (by simp [ht]), List.reverse_reverse]
      exact congrArg (t :: ·) (ih (fun v hv => h v (List.mem_cons_of_mem _ hv)))

theorem splitWsAux_facts :
    ∀ (cs acc : Str), (∀ c ∈ acc, isPySpace c = false) →
      ∀ t ∈ splitWsAux acc cs, t ≠ [] ∧ ∀ c ∈ t, isPySpace c = false ∧ (c ∈ acc ∨ c ∈ cs) := by
  intro cs
  induction cs with
  | nil =>
    intro acc hacc t ht
    rw [splitWsAux_nil] at ht
    by_cases ha : acc = []
    · rw [if_pos ha] at ht; simp at ht
    · rw [if_neg ha] at ht
      rcases List.mem_singleton.mp ht with rfl
      refine ⟨by simpa using ha, fun c hc => ?_⟩
      rw [List.mem_reverse] at hc
      exact ⟨hacc c hc, Or.inl hc⟩
  | cons x xs ih =>
    intro acc hacc t ht
    rw [splitWsAux_cons] at ht
    by_cases hx : isPySpace x = true
    · rw [if_pos hx] at ht
      by_cases ha : acc = []
      · rw [if_pos ha] at ht
        obtain ⟨h1, h2⟩ := ih [] (by simp) t ht
        exact ⟨h1, fun c hc => ⟨(h2 c hc).1,
          Or.inr (List.mem_cons_of_mem _ ((h2 c hc).2.resolve_left (by simp)))⟩⟩
      · rw [if_neg ha] at ht
        rcases List.mem_cons.mp ht with rfl | ht2
        · refine ⟨by simpa using ha, fun c hc => ?_⟩
          rw [List.mem_reverse] at hc
          exact ⟨hacc c hc, Or.inl hc⟩
        · obtain ⟨h1, h2⟩ := ih [] (by simp) t ht2
          exact ⟨h1, fun c hc => ⟨(h2 c hc).1,
            Or.inr (List.mem_cons_of_mem _ ((h2 c hc).2.resolve_left (by simp)))⟩⟩
    · rw [if_neg hx] at ht
      have hx' : isPySpace x = false := by revert hx; cases isPySpace x <;> simp
      obtain ⟨h1, h2⟩ := ih (x :: acc)
        (fun c hc => by
          rcases List.mem_cons.mp hc with rfl | hc2
          · exact hx'
          · exact hacc c hc2) t ht
      refine ⟨h1, fun c hc => ⟨(h2 c hc).1, ?_⟩⟩
      rcases (h2 c hc).2 with h3 | h3
      · rcases List.mem_cons.mp h3 with rfl | h4
        · exact Or.inr (List.mem_cons_self _ _)
        · exact Or.inl h4
      · exact Or.inr (List.mem_cons_of_mem _ h3)

theorem splitWs_facts {s : Str} :
    ∀ t ∈ splitWs s, t ≠ [] ∧ ∀ c ∈ t, isPySpace c = false ∧ c ∈ s := by
  intro t ht
  obtain ⟨h1, h2⟩ := splitWsAux_facts s [] (by simp) t ht
  exact ⟨h1, fun c hc => ⟨(h2 c hc).1, ((h2 c hc).2).resolve_left (by simp)⟩⟩

theorem collapseAux_nil_none : collapseAux none [] = [] := rfl

theorem collapseAux_nil_some (c : Char) (multi : Bool) :
    collapseAux (some (c, multi)) [] = if multi then [' '] else [c] := rfl

theorem collapseAux_cons_none (x : Char) (xs : Str) :
    collapseAux none (x :: xs) =
      if isPySpace x then collapseAux (some (x, false)) xs
      else x :: collapseAux none xs := rfl

theorem collapseAux_cons_some (c : Char) (multi : Bool) (x : Char) (xs : Str) :
    collapseAux (some (c, multi)) (x :: xs) =
      if isPySpace x then collapseAux (some (c, true)) xs
      else (if multi then [' '] else [c]) ++ x :: collapseAux none xs := rfl

theorem collapseAux_nonws_chunk :
    ∀ (t rest : Str), (∀ c ∈ t, isPySpace c = false) →
      collapseAux none (t ++ rest) = t ++ collapseAux none rest := by
  intro t
  induction t with
  | nil => intro rest _; rfl
  | cons x xs ih =>
    intro rest h
    have hx : isPySpace x = false := h x (List.mem_cons_self _ _)
    show collapseAux none (x :: (xs ++ rest)) = _
    rw [collapseAux_cons_none, if_neg (by simp [hx])]
    rw [ih rest (fun c hc => h c (List.mem_cons_of_mem _ hc))]
    rfl

theorem mem_collapseAux {c : Char} :
    ∀ (s : Str) (pending : Option (Char × Bool)), c ∈ collapseAux pending s →
      c = ' ' ∨ c ∈ s ∨ ∃ m, pending = some (c, m) := by
  intro s
  induction s with
  | nil =>
    intro pending h
    match pending with
    | none => rw [collapseAux_nil_none] at h; simp at h
    | some (d, multi) =>
      rw [collapseAux_nil_some] at h
      by_cases hm : multi = true
      · rw [if_pos hm] at h
        exact Or.inl (List.mem_singleton.mp h)
      · rw [if_neg hm] at h
        rcases List.mem_singleton.mp h with rfl
        exact Or.inr (Or.inr ⟨multi, rfl⟩)
  | cons x xs ih =>
    intro pending h
    match pending with
    | none =>
      rw [collapseAux_cons_none] at h
      by_cases hx : isPySpace x = true
      · rw [if_pos hx] at h
        rcases ih _ h with h2 | h2 | ⟨m, hm⟩
        · exact Or.inl h2
        · exact Or.inr (Or.inl (List.mem_cons_of_mem _ h2))
        · rcases Prod.mk.injEq .. ▸ Option.some.inj hm with ⟨rfl, _⟩
          exact Or.inr (Or.inl (List.mem_cons_self _ _))
      · rw [if_neg hx] at h
        rcases List.mem_cons.mp h with rfl | h2
        · exact Or.inr (Or.inl (List.mem_cons_self _ _))
        · rcases ih _ h2 with h3 | h3 | ⟨m, hm⟩
          · exact Or.inl h3
          · exact Or.inr (Or.inl (List.mem_cons_of_mem _ h3))
          · simp at hm
    | some (d, multi) =>
      rw [collapseAux_cons_some] at h
      by_cases hx : isPySpace x = true
      · rw [if_pos hx] at h
        rcases ih _ h with h2 | h2 | ⟨m, hm⟩
        · exact Or.inl h2
        · exact Or.inr (Or.inl (List.mem_cons_of_mem _ h2))
        · have : d = c := by simpa using congrArg (fun o => o.map Prod.fst) hm
          subst this
          exact Or.inr (Or.inr ⟨multi, rfl⟩)
      · rw [if_neg hx] at h
        rw [List.mem_append] at h
        rcases h with h | h
        · by_cases hm : multi = true
          · rw [if_pos hm] at h
            exact Or.inl (List.mem_singleton.mp h)
          · rw [if_neg hm] at h
            rcases List.mem_singleton.mp h with rfl
            exact Or.inr (Or.inr ⟨multi, rfl⟩)
        · rcases List.mem_cons.mp h with rfl | h2
          · exact Or.inr (Or.inl (List.mem_cons_self _ _))
          · rcases ih _ h2 with h3 | h3 | ⟨m, hm⟩
            · exact Or.inl h3
            · exact Or.inr (Or.inl (List.mem_cons_of_mem _ h3))
            · simp at hm

theorem mem_collapseWs {c : Char} {s : Str} (h : c ∈ collapseWs s) : c = ' ' ∨ c ∈ s := by
  rcases mem_collapseAux s none h with h2 | h2 | ⟨m, hm⟩
  · exact Or.inl h2
  · exact Or.inr h2
  · simp at hm

theorem joinSpace_head_shape (c : Char) (t' : Str) (ts : List Str) :
    ∃ Z, joinSpace ((c :: t') :: ts) = c :: Z := by
  cases ts with
  | nil => exact ⟨t', rfl⟩
  | cons u ts' => exact ⟨t' ++ ' ' :: joinSpace (u :: ts'), rfl⟩

theorem collapse_joinSpace :
    ∀ (toks : List Str), toks ≠ [] →
      (∀ t ∈ toks, t ≠ [] ∧ ∀ c ∈ t, isPySpace c = false) →
      collapseWs (joinSpace toks) = joinSpace toks := by
  intro toks
  induction toks with
  | nil => intro h; exact absurd rfl h
  | cons t ts ih =>
    intro _ h
    obtain ⟨ht, htc⟩ := h t (List.mem_cons_self _ _)
    cases ts with
    | nil =>
      show collapseAux none (joinSpace [t]) = joinSpace [t]
      have h1 : joinSpace [t] = t ++ [] := by simp [joinSpace]
      rw [h1, collapseAux_nonws_chunk t [] htc]
      rfl
    | cons u ts' =>
      obtain ⟨hu, huc⟩ := h u (List.mem_cons_of_mem _ (List.mem_cons_self _ _))
      obtain ⟨c2, u', rfl⟩ : ∃ c2 u', u = c2 :: u' := by
        cases u with
        | nil => exact absurd rfl hu
        | cons a b => exact ⟨a, b, rfl⟩
      obtain ⟨Z, hZ⟩ := joinSpace_head_shape c2 u' ts'
      have hc2 : isPySpace c2 = false := huc c2 (List.mem_cons_self _ _)
      have h3 := ih (by simp) (fun v hv => h v (List.mem_cons_of_mem _ hv))
      unfold collapseWs at h3 ⊢
      rw [joinSpace_cons2, collapseAux_nonws_chunk t _ htc]
      congr 1
      rw [hZ] at h3 ⊢
      rw [collapseAux_cons_none, if_pos (by rfl), collapseAux_cons_some, if_neg (by simp [hc2])]
      rw [collapseAux_cons_none, if_neg (by simp [hc2])] at h3
      rcases List.cons.inj h3 with ⟨_, h5⟩
      show [' '] ++ c2 :: collapseAux none Z = ' ' :: c2 :: Z
      rw [h5]
      rfl

theorem dropWhile_ws_joinSpace {toks : List Str}
    (h : ∀ t ∈ toks, t ≠ [] ∧ ∀ c ∈ t, isPySpace c = false) :
    (joinSpace toks).dropWhile isPySpace = joinSpace toks := by
  cases toks with
  | nil => rfl
  | cons t ts =>
    obtain ⟨ht, htc⟩ := h t (List.mem_cons_self _ _)
    obtain ⟨c, t', rfl⟩ : ∃ c t', t = c :: t' := by
      cases t with
      | nil => exact absurd rfl ht
      | cons a b => exact ⟨a, b, rfl⟩
    obtain ⟨Z, hZ⟩ := joinSpace_head_shape c t' ts
    rw [hZ, List.dropWhile_cons, if_neg (by simp [htc c (List.mem_cons_self _ _)])]

theorem pyStrip_joinSpace {toks : List Str}
    (h : ∀ t ∈ toks, t ≠ [] ∧ ∀ c ∈ t, isPySpace c = false) :
    pyStrip (joinSpace toks) = joinSpace toks := by
  unfold pyStrip
  rw [dropWhile_ws_joinSpace h, joinSpace_reverse]
  have h2 : ∀ t ∈ toks.reverse.map List.reverse, t ≠ [] ∧ ∀ c ∈ t, isPySpace c = false := by
    intro t ht
    rw [List.mem_map] at ht
    obtain ⟨v, hv, rfl⟩ := ht
    rw [List.mem_reverse] at hv
    obtain ⟨h1, h2⟩ := h v hv
    exact ⟨by simpa using h1, fun c hc => h2 c (List.mem_reverse.mp hc)⟩
  rw [dropWhile_ws_joinSpace h2, ← joinSpace_reverse, List.reverse_reverse]

theorem mem_sanitizeC {c : Char} {s : Str} (h : c ∈ sanitizeC s) : keepC c = true := by
  unfold sanitizeC at h
  rw [List.mem_map] at h
  obtain ⟨d, _, rfl⟩ := h
  by_cases hd : keepC d = true
  · rwa [if_pos hd]
  · rw [if_neg hd]; rfl

theorem sanitizeC_eq_self {s : Str} (h : ∀ c ∈ s, keepC c = true) : sanitizeC s = s := by
  unfold sanitizeC
  induction s with
  | nil => rfl
  | cons x xs ih =>
    rw [List.map_cons, if_pos (h x (List.mem_cons_self _ _))]
    rw [ih (fun c hc => h c (List.mem_cons_of_mem _ hc))]

/-! ### Lemmas about case normalisation -/

theorem titleGo_length : ∀ (t : Str) (b : Bool), (titleGo b t).length = t.length := by
  intro t
  induction t with
  | nil => intro b; rfl
  | cons c cs ih => intro b; simp [titleGo, ih]

theorem mem_titleGo {c : Char} :
    ∀ {t : Str} {b : Bool}, c ∈ titleGo b t → ∃ d ∈ t, c = toLowerC d ∨ c = toUpperC d := by
  intro t
  induction t with
  | nil => intro b h; simp [titleGo] at h
  | cons x xs ih =>
    intro b h
    rw [show titleGo b (x :: xs)
        = (if b then toLowerC x else toUpperC x) :: titleGo (isCasedC x) xs from rfl] at h
    rcases List.mem_cons.mp h with rfl | h2
    · refine ⟨x, List.mem_cons_self _ _, ?_⟩
      by_cases hb : b = true
      · rw [if_pos hb]; exact Or.inl rfl
      · rw [if_neg hb]; exact Or.inr rfl
    · obtain ⟨d, hd, hor⟩ := ih h2
      exact ⟨d, List.mem_cons_of_mem _ hd, hor⟩

theorem any_isLatin_titleGo : ∀ (t : Str) (b : Bool), (titleGo b t).any isLatin = t.any isLatin := by
  intro t
  induction t with
  | nil => intro b; rfl
  | cons x xs ih =>
    intro b
    rw [show titleGo b (x :: xs)
        = (if b then toLowerC x else toUpperC x) :: titleGo (isCasedC x) xs from rfl]
    rw [List.any_cons, List.any_cons, ih]
    by_cases hb : b = true
    · rw [if_pos hb, isLatin_toLowerC]
    · rw [if_neg hb, isLatin_toUpperC]

theorem titleGo_titleGo : ∀ (t : Str) (b : Bool), titleGo b (titleGo b t) = titleGo b t := by
  intro t
  induction t with
  | nil => intro b; rfl
  | cons x xs ih =>
    intro b
    rw [show titleGo b (x :: xs)
        = (if b then toLowerC x else toUpperC x) :: titleGo (isCasedC x) xs from rfl]
    rw [show titleGo b ((if b then toLowerC x else toUpperC x) :: titleGo (isCasedC x) xs)
        = (if b then toLowerC (if b then toLowerC x else toUpperC x)
           else toUpperC (if b then toLowerC x else toUpperC x))
          :: titleGo (isCasedC (if b then toLowerC x else toUpperC x))
               (titleGo (isCasedC x) xs) from rfl]
    by_cases hb : b = true
    · simp only [if_pos hb]
      rw [toLowerC_toLowerC]
      rw [show isCasedC (toLowerC x) = isCasedC x from isLatin_toLowerC x, ih]
    · simp only [if_neg hb]
      rw [toUpperC_toUpperC]
      rw [show isCasedC (toUpperC x) = isCasedC x from isLatin_toUpperC x, ih]

theorem isInitialTok_titleGo : ∀ (t : Str) (b : Bool), isInitialTok (titleGo b t) = isInitialTok t := by
  intro t b
  match t with
  | [] => rfl
  | [a] => rfl
  | [a, d] =>
    show isInitialTok [if b then toLowerC a else toUpperC a,
      if isCasedC a then toLowerC d else toUpperC d] = _
    unfold isInitialTok
    rw [Bool.eq_iff_iff]
    simp only [Bool.and_eq_true, decide_eq_true_eq]
    constructor
    · rintro ⟨h1, h2⟩
      constructor
      · by_cases hb : b = true
        · rw [if_pos hb] at h1; rwa [isLatin_toLowerC] at h1
        · rw [if_neg hb] at h1; rwa [isLatin_toUpperC] at h1
      · by_cases hc : isCasedC a = true
        · rw [if_pos hc] at h2; rwa [toLowerC_dot_iff] at h2
        · rw [if_neg hc] at h2; rwa [toUpperC_dot_iff] at h2
    · rintro ⟨h1, h2⟩
      constructor
      · by_cases hb : b = true
        · rw [if_pos hb, isLatin_toLowerC]; exact h1
        · rw [if_neg hb, isLatin_toUpperC]; exact h1
      · by_cases hc : isCasedC a = true
        · rw [if_pos hc, toLowerC_dot_iff]; exact h2
        · rw [if_neg hc, toUpperC_dot_iff]; exact h2
  | a :: d :: e :: rest => rfl

theorem any_isLatin_map_upper (t : Str) : (t.map toUpperC).any isLatin = t.any isLatin := by
  induction t with
  | nil => rfl
  | cons x xs ih => rw [List.map_cons, List.any_cons, List.any_cons, isLatin_toUpperC, ih]

theorem isInitialTok_map_upper (t : Str) : isInitialTok (t.map toUpperC) = isInitialTok t := by
  match t with
  | [] => rfl
  | [a] => rfl
  | [a, d] =>
    unfold isInitialTok
    rw [List.map_cons, List.map_cons, List.map_nil]
    rw [Bool.eq_iff_iff]
    simp only [Bool.and_eq_true, decide_eq_true_eq]
    rw [isLatin_toUpperC, toUpperC_dot_iff]
  | a :: d :: e :: rest => rfl

theorem map_upper_idem (t : Str) : (t.map toUpperC).map toUpperC = t.map toUpperC := by
  rw [List.map_map]
  exact List.map_congr_left (fun c _ => toUpperC_toUpperC c)

theorem caseTok_caseTok (t : Str) : caseTok (caseTok t) = caseTok t := by
  unfold caseTok
  by_cases hl : t.any isLatin = true
  · rw [if_pos hl]
    by_cases hi : isInitialTok t = true
    · rw [if_pos hi]
      rw [if_pos (by rw [any_isLatin_map_upper]; exact hl)]
      rw [if_pos (by rw [isInitialTok_map_upper]; exact hi)]
      exact map_upper_idem t
    · rw [if_neg hi]
      rw [if_pos (by rw [pyTitle, any_isLatin_titleGo]; exact hl)]
      rw [if_neg (by rw [pyTitle, isInitialTok_titleGo]; exact hi)]
      exact titleGo_titleGo t false
  · rw [if_neg hl, if_neg hl]

theorem caseTok_length (t : Str) : (caseTok t).length = t.length := by
  unfold caseTok
  by_cases hl : t.any isLatin = true
  · rw [if_pos hl]
    by_cases hi : isInitialTok t = true
    · rw [if_pos hi, List.length_map]
    · rw [if_neg hi]; exact titleGo_length t false
  · rw [if_neg hl]

theorem mem_caseTok {c : Char} {t : Str} (h : c ∈ caseTok t) :
    ∃ d ∈ t, c = d ∨ c = toLowerC d ∨ c = toUpperC d := by
  unfold caseTok at h
  by_cases hl : t.any isLatin = true
  · rw [if_pos hl] at h
    by_cases hi : isInitialTok t = true
    · rw [if_pos hi] at h
      rw [List.mem_map] at h
      obtain ⟨d, hd, rfl⟩ := h
      exact ⟨d, hd, Or.inr (Or.inr rfl)⟩
    · rw [if_neg hi] at h
      obtain ⟨d, hd, hor⟩ := mem_titleGo h
      exact ⟨d, hd, Or.inr hor⟩
  · rw [if_neg hl] at h
    exact ⟨c, h, Or.inl rfl⟩

/-! ### Structure of the cleaner output -/

theorem caseTok_tok_facts {t : Str} (h1 : t ≠ [])
    (h2 : ∀ c ∈ t, isPySpace c = false ∧ keepC c = true) :
    caseTok t ≠ [] ∧ (∀ c ∈ caseTok t, isPySpace c = false ∧ keepC c = true) ∧
      caseTok (caseTok t) = caseTok t := by
  refine ⟨?_, ?_, caseTok_caseTok t⟩
  · intro hx
    have := caseTok_length t
    rw [hx] at this
    exact h1 (List.length_eq_zero.mp this.symm)
  · intro c hc
    obtain ⟨d, hd, hor⟩ := mem_caseTok hc
    obtain ⟨hd1, hd2⟩ := h2 d hd
    rcases hor with rfl | rfl | rfl
    · exact ⟨hd1, hd2⟩
    · rw [isPySpace_toLowerC, keepC_toLowerC]; exact ⟨hd1, hd2⟩
    · rw [isPySpace_toUpperC, keepC_toUpperC]; exact ⟨hd1, hd2⟩

theorem stage8_facts (y : Str) :
    ∀ t ∈ splitWs (pyStrip (collapseWs (sanitizeC y))),
      t ≠ [] ∧ ∀ c ∈ t, isPySpace c = false ∧ keepC c = true := by
  intro t ht
  obtain ⟨h1, h2⟩ := splitWs_facts t ht
  refine ⟨h1, fun c hc => ⟨(h2 c hc).1, ?_⟩⟩
  have h3 := mem_pyStrip (h2 c hc).2
  rcases mem_collapseWs h3 with rfl | h4
  · rfl
  · exact mem_sanitizeC h4

theorem clean_some_elim {raw r : Str} (h : clean_extracted_name raw = some r) :
    ∃ y, r = joinSpace ((splitWs (pyStrip (collapseWs (sanitizeC y)))).map caseTok) ∧
      2 ≤ (splitWs r).length := by
  unfold clean_extracted_name at h
  simp only [] at h
  split at h
  · exact absurd h (by simp)
  · split at h
    · exact absurd h (by simp)
    · split at h
      · exact absurd h (by simp)
      · next hgate =>
        refine ⟨_, (Option.some.inj h).symm, ?_⟩
        rw [← Option.some.inj h]
        omega

theorem clean_output_tokens {raw r : Str} (h : clean_extracted_name raw = some r) :
    ∃ toks : List Str, r = joinSpace toks ∧ splitWs r = toks ∧ 2 ≤ toks.length ∧
      ∀ t ∈ toks, t ≠ [] ∧ (∀ c ∈ t, isPySpace c = false ∧ keepC c = true) ∧
        caseTok t = t := by
  obtain ⟨y, hy, hlen⟩ := clean_some_elim h
  have hfacts : ∀ t ∈ (splitWs (pyStrip (collapseWs (sanitizeC y)))).map caseTok,
      t ≠ [] ∧ (∀ c ∈ t, isPySpace c = false ∧ keepC c = true) ∧ caseTok t = t := by
    intro t ht
    rw [List.mem_map] at ht
    obtain ⟨u, hu, rfl⟩ := ht
    obtain ⟨hu1, hu2⟩ := stage8_facts y u hu
    exact caseTok_tok_facts hu1 hu2
  refine ⟨(splitWs (pyStrip (collapseWs (sanitizeC y)))).map caseTok, hy, ?_, ?_, hfacts⟩
  · rw [hy]
    exact splitWs_joinSpace _ (fun t ht => ⟨(hfacts t ht).1, fun c hc => ((hfacts t ht).2.1 c hc).1⟩)
  · have : splitWs r = (splitWs (pyStrip (collapseWs (sanitizeC y)))).map caseTok := by
      rw [hy]
      exact splitWs_joinSpace _
        (fun t ht => ⟨(hfacts t ht).1, fun c hc => ((hfacts t ht).2.1 c hc).1⟩)
    rw [this] at hlen
    exact hlen

theorem clean_tokens_ge2 {raw r : Str} (h : clean_extracted_name raw = some r) :
    2 ≤ (splitWs r).length := by
  obtain ⟨toks, _, h2, h3, _⟩ := clean_output_tokens h
  rw [h2]
  exact h3

theorem clean_no_ascii_digit {raw r : Str} (h : clean_extracted_name raw = some r) :
    ∀ c ∈ r, isAsciiDigit c = false := by
  obtain ⟨toks, h1, _, _, h4⟩ := clean_output_tokens h
  intro c hc
  rw [h1] at hc
  rcases mem_joinSpace hc with rfl | ⟨t, ht, hct⟩
  · rfl
  · exact keepC_not_digit ((h4 t ht).2.1 c hct).2

/-! ### Provenance: every extracted name is a cleaner output -/

theorem dobGo_from_clean :
    ∀ (ls : List Str) (prev : Option Str) (s : Str), dobGo prev ls = some s →
      ∃ raw, clean_extracted_name raw = some s := by
  intro ls
  induction ls with
  | nil => intro prev s h; exact absurd h (by simp [dobGo])
  | cons l rest ih =>
    intro prev s h
    unfold dobGo at h
    split at h
    · split at h
      · split at h
        · next c heq => exact ⟨_, by rw [heq, Option.some.inj h]⟩
        · exact ih _ s h
      · exact ih _ s h
    · exact ih _ s h

theorem twoWordScan_from_clean :
    ∀ (ls : List Str) (s : Str), twoWordScan ls = some s →
      ∃ raw, clean_extracted_name raw = some s := by
  intro ls
  induction ls with
  | nil => intro s h; exact absurd h (by simp [twoWordScan])
  | cons l rest ih =>
    intro s h
    unfold twoWordScan at h
    split at h
    · split at h
      · next c heq => exact ⟨_, by rw [heq, Option.some.inj h]⟩
      · exact ih s h
    · exact ih s h

theorem extract_name_from_clean {t : Str} {tc : Option Str} {s : Str}
    (h : extract_name t tc = some s) : ∃ raw, clean_extracted_name raw = some s := by
  unfold extract_name at h
  simp only [] at h
  split at h
  · next n hc =>
    split at hc
    · exact absurd hc (by simp)
    · next c =>
      split at hc
      · exact absurd hc (by simp)
      · split at hc
        · next m heq =>
          rw [Option.some.inj hc] at heq
          rw [← Option.some.inj h]
          exact dobGo_from_clean _ _ _ heq
        · rw [← Option.some.inj h]
          exact twoWordScan_from_clean _ _ hc
  · split at h
    · next m heq =>
      rw [← Option.some.inj h]
      exact dobGo_from_clean _ _ _ heq
    · exact twoWordScan_from_clean _ _ h

/-! ### Specifications of the pattern matchers -/

theorem digits4_spec : ∀ {cs g r : Str}, digits4 cs = some (g, r) →
    cs = g ++ r ∧ g.length = 4 ∧ ∀ c ∈ g, isPyDigit c = true := by
  intro cs g r h
  unfold digits4 at h
  split at h
  · next a b c d r' =>
    split at h
    · next hd =>
      obtain ⟨h1, h2⟩ := Prod.mk.injEq .. ▸ Option.some.inj h
      subst h1; subst h2
      simp only [Bool.and_eq_true] at hd
      refine ⟨rfl, rfl, ?_⟩
      intro x hx
      simp only [List.mem_cons, List.not_mem_nil, or_false] at hx
      rcases hx with rfl | rfl | rfl | rfl <;> tauto
    · exact absurd h (by simp)
  · exact absurd h (by simp)

theorem optWs1_spec : ∀ {cs w r : Str}, optWs1 cs = (w, r) →
    cs = w ++ r ∧ w.length ≤ 1 ∧ ∀ c ∈ w, isPySpace c = true := by
  intro cs w r h
  unfold optWs1 at h
  split at h
  · obtain ⟨h1, h2⟩ := Prod.mk.injEq .. ▸ h
    subst h1; subst h2
    exact ⟨rfl, by simp, by simp⟩
  · next c cs' =>
    split at h
    · next hc =>
      obtain ⟨h1, h2⟩ := Prod.mk.injEq .. ▸ h
      subst h1; subst h2
      refine ⟨rfl, by simp, ?_⟩
      intro x hx
      rcases List.mem_singleton.mp hx with rfl
      exact hc
    · obtain ⟨h1, h2⟩ := Prod.mk.injEq .. ▸ h
      subst h1; subst h2
      exact ⟨rfl, by simp, by simp⟩

theorem matchAadhaarAt_spec {cs sp : Str} (h : matchAadhaarAt cs = some sp) :
    ∃ g1 w1 g2 w2 g3 rest : Str, cs = (g1 ++ w1 ++ g2 ++ w2 ++ g3) ++ rest ∧
      sp = g1 ++ w1 ++ g2 ++ w2 ++ g3 ∧
      g1.length = 4 ∧ g2.length = 4 ∧ g3.length = 4 ∧
      (∀ c ∈ g1, isPyDigit c = true) ∧ (∀ c ∈ g2, isPyDigit c = true) ∧
      (∀ c ∈ g3, isPyDigit c = true) ∧
      w1.length ≤ 1 ∧ w2.length ≤ 1 ∧
      (∀ c ∈ w1, isPySpace c = true) ∧ (∀ c ∈ w2, isPySpace c = true) := by
  unfold matchAadhaarAt at h
  split at h
  · exact absurd h (by simp)
  · next g1 r1 heq1 =>
    obtain ⟨hc1, hl1, hd1⟩ := digits4_spec heq1
    obtain ⟨w1, r2, heqw1⟩ : ∃ w1 r2, optWs1 r1 = (w1, r2) := ⟨_, _, rfl⟩
    rw [heqw1] at h
    obtain ⟨hc2, hl2, hs1⟩ := optWs1_spec heqw1
    simp only [] at h
    split at h
    · exact absurd h (by simp)
    · next g2 r3 heq2 =>
      obtain ⟨hc3, hl3, hd2⟩ := digits4_spec heq2
      obtain ⟨w2, r4, heqw2⟩ : ∃ w2 r4, optWs1 r3 = (w2, r4) := ⟨_, _, rfl⟩
      rw [heqw2] at h
      obtain ⟨hc4, hl4, hs2⟩ := optWs1_spec heqw2
      simp only [] at h
      split at h
      · exact absurd h (by simp)
      · next g3 r5 heq3 =>
        obtain ⟨hc5, hl5, hd3⟩ := digits4_spec heq3
        refine ⟨g1, w1, g2, w2, g3, r5, ?_, (Option.some.inj h).symm,
          hl1, hl3, hl5, hd1, hd2, hd3, hl2, hl4, hs1, hs2⟩
        rw [hc1, hc2, hc3, hc4, hc5]
        simp [List.append_assoc]

theorem searchAadhaar_split : ∀ {cs sp : Str}, searchAadhaar cs = some sp →
    ∃ pre rest : Str, cs = pre ++ rest ∧ matchAadhaarAt rest = some sp := by
  intro cs
  induction cs with
  | nil => intro sp h; exact absurd h (by simp [searchAadhaar])
  | cons c cs' ih =>
    intro sp h
    unfold searchAadhaar at h
    split at h
    · next sp' heq =>
      exact ⟨[], c :: cs', rfl, by rw [heq, Option.some.inj h]⟩
    · obtain ⟨pre, rest, h1, h2⟩ := ih h
      exact ⟨c :: pre, rest, by rw [List.cons_append, h1], h2⟩

theorem matchDateAt_spec {cs sp : Str} (h : matchDateAt cs = some sp) :
    ∃ (d1 d2 x d3 d4 y d5 d6 d7 d8 : Char) (rest : Str),
      sp = [d1, d2, x, d3, d4, y, d5, d6, d7, d8] ∧ cs = sp ++ rest ∧
      isPyDigit d1 = true ∧ isPyDigit d2 = true ∧ isDateSep x = true ∧
      isPyDigit d3 = true ∧ isPyDigit d4 = true ∧ isDateSep y = true ∧
      isPyDigit d5 = true ∧ isPyDigit d6 = true ∧ isPyDigit d7 = true ∧
      isPyDigit d8 = true := by
  unfold matchDateAt at h
  split at h
  · next a b s1 c d s2 e f g hh tail =>
    split at h
    · next hcond =>
      simp only [Bool.and_eq_true] at hcond
      refine ⟨a, b, s1, c, d, s2, e, f, g, hh, tail, (Option.some.inj h).symm, ?_, ?_⟩
      · rw [← Option.some.inj h]; rfl
      · tauto
    · exact absurd h (by simp)
  · exact absurd h (by simp)

theorem searchDate_split : ∀ {cs sp : Str}, searchDate cs = some sp →
    ∃ pre rest : Str, cs = pre ++ rest ∧ matchDateAt rest = some sp := by
  intro cs
  induction cs with
  | nil => intro sp h; exact absurd h (by simp [searchDate])
  | cons c cs' ih =>
    intro sp h
    unfold searchDate at h
    split at h
    · next sp' heq =>
      exact ⟨[], c :: cs', rfl, by rw [heq, Option.some.inj h]⟩
    · obtain ⟨pre, rest, h1, h2⟩ := ih h
      exact ⟨c :: pre, rest, by rw [List.cons_append, h1], h2⟩

/-! ### Claim C1 -/

/-- C1: for every transcript, `extract_aadhar` returns absent or a string of
exactly twelve digits grouped as three four-digit groups separated by single
spaces, i.e. matching `^\d{4} \d{4} \d{4}$`. -/
theorem c1_aadhar_output_format {t s : Str} (h : extract_aadhar t = some s) :
    ∃ g1 g2 g3 : Str, s = g1 ++ ' ' :: g2 ++ ' ' :: g3 ∧
      g1.length = 4 ∧ g2.length = 4 ∧ g3.length = 4 ∧
      (∀ c ∈ g1, isPyDigit c = true) ∧ (∀ c ∈ g2, isPyDigit c = true) ∧
      (∀ c ∈ g3, isPyDigit c = true) := by
  unfold extract_aadhar at h
  simp only [] at h
  split at h
  · exact absurd h (by simp)
  · next sp heq =>
    split at h
    · exact absurd h (by simp)
    · obtain ⟨pre, rest0, hpre, hmatch⟩ := searchAadhaar_split heq
      obtain ⟨g1, w1, g2, w2, g3, rest, _, hsp, hl1, hl2, hl3, hd1, hd2, hd3,
        _, _, hw1, hw2⟩ := matchAadhaarAt_spec hmatch
      have f1 : g1.filter (fun c => !isPySpace c) = g1 :=
        List.filter_eq_self.mpr (fun a ha => by rw [isPyDigit_not_space (hd1 a ha)]; rfl)
      have f2 : g2.filter (fun c => !isPySpace c) = g2 :=
        List.filter_eq_self.mpr (fun a ha => by rw [isPyDigit_not_space (hd2 a ha)]; rfl)
      have f3 : g3.filter (fun c => !isPySpace c) = g3 :=
        List.filter_eq_self.mpr (fun a ha => by rw [isPyDigit_not_space (hd3 a ha)]; rfl)
      have fw1 : w1.filter (fun c => !isPySpace c) = [] :=
        List.filter_eq_nil_iff.mpr (fun a ha => by rw [hw1 a ha]; simp)
      have fw2 : w2.filter (fun c => !isPySpace c) = [] :=
        List.filter_eq_nil_iff.mpr (fun a ha => by rw [hw2 a ha]; simp)
      have hfil : sp.filter (fun c => !isPySpace c) = (g1 ++ g2) ++ g3 := by
        rw [hsp]
        simp only [List.filter_append, f1, f2, f3, fw1, fw2, List.append_nil]
      have t1 : ((g1 ++ g2) ++ g3).take 4 = g1 := by
        rw [List.append_assoc, ← hl1, List.take_left]
      have t2 : ((g1 ++ g2) ++ g3).drop 4 = g2 ++ g3 := by
        rw [List.append_assoc, ← hl1, List.drop_left]
      have t3 : (g2 ++ g3).take 4 = g2 := by rw [← hl2, List.take_left]
      have t4 : ((g1 ++ g2) ++ g3).drop 8 = g3 := by
        rw [show (8 : Nat) = (g1 ++ g2).length by simp [hl1, hl2], List.drop_left]
      have t5 : g3.take 4 = g3 := by rw [← hl3, List.take_length]
      refine ⟨g1, g2, g3, ?_, hl1, hl2, hl3, hd1, hd2, hd3⟩
      rw [← Option.some.inj h, hfil, t1, t2, t3, t4, t5]

/-- Witness for C1 at the concrete transcript `"1234 5678 9123"`. -/
theorem c1_aadhar_output_format_witness :
    ∃ g1 g2 g3 : Str, "1234 5678 9123".toList = g1 ++ ' ' :: g2 ++ ' ' :: g3 ∧
      g1.length = 4 ∧ g2.length = 4 ∧ g3.length = 4 ∧
      (∀ c ∈ g1, isPyDigit c = true) ∧ (∀ c ∈ g2, isPyDigit c = true) ∧
      (∀ c ∈ g3, isPyDigit c = true) :=
  @c1_aadhar_output_format ("1234 5678 9123".toList) ("1234 5678 9123".toList) (by rfl)

/-! ### Claim C2 -/

/-- C2: for every transcript, `extract_dob` returns absent or a string
matching `^\d{2}[\/\-]\d{2}[\/\-]\d{4}$` that is a verbatim contiguous substring
of the transcript. -/
theorem c2_dob_verbatim {t s : Str} (h : extract_dob t = some s) :
    (∃ (d1 d2 x d3 d4 y d5 d6 d7 d8 : Char),
      s = [d1, d2, x, d3, d4, y, d5, d6, d7, d8] ∧
      isPyDigit d1 = true ∧ isPyDigit d2 = true ∧ isDateSep x = true ∧
      isPyDigit d3 = true ∧ isPyDigit d4 = true ∧ isDateSep y = true ∧
      isPyDigit d5 = true ∧ isPyDigit d6 = true ∧ isPyDigit d7 = true ∧
      isPyDigit d8 = true) ∧
    ∃ pre post : Str, t = pre ++ s ++ post := by
  obtain ⟨pre, rest0, hpre, hmatch⟩ := searchDate_split h
  obtain ⟨d1, d2, x, d3, d4, y, d5, d6, d7, d8, rest, hsp, hrest, hp⟩ :=
    matchDateAt_spec hmatch
  refine ⟨⟨d1, d2, x, d3, d4, y, d5, d6, d7, d8, hsp, hp.1, hp.2.1, hp.2.2.1,
    hp.2.2.2.1, hp.2.2.2.2.1, hp.2.2.2.2.2.1, hp.2.2.2.2.2.2.1,
    hp.2.2.2.2.2.2.2.1, hp.2.2.2.2.2.2.2.2.1, hp.2.2.2.2.2.2.2.2.2⟩,
    pre, rest, ?_⟩
  rw [hpre, hrest, List.append_assoc]

/-- Witness for C2 at the concrete transcript `"xx 01/02/1990 yy"`. -/
theorem c2_dob_verbatim_witness :
    (∃ (d1 d2 x d3 d4 y d5 d6 d7 d8 : Char),
      "01/02/1990".toList = [d1, d2, x, d3, d4, y, d5, d6, d7, d8] ∧
      isPyDigit d1 = true ∧ isPyDigit d2 = true ∧ isDateSep x = true ∧
      isPyDigit d3 = true ∧ isPyDigit d4 = true ∧ isDateSep y = true ∧
      isPyDigit d5 = true ∧ isPyDigit d6 = true ∧ isPyDigit d7 = true ∧
      isPyDigit d8 = true) ∧
    ∃ pre post : Str, "xx 01/02/1990 yy".toList = pre ++ "01/02/1990".toList ++ post :=
  @c2_dob_verbatim ("xx 01/02/1990 yy".toList) ("01/02/1990".toList) (by rfl)

/-! ### Claim C5 -/

/-- C5: evaluation of `extract_aadhar` at a transcript that is a single run
of thirteen digits.  The regex matches the first twelve digits, the stripped
match therefore has exactly twelve digits, and the dead digit-count guard
does not fire: the function returns a formatted number, not absent. -/
theorem c5_thirteen_digit_run :
    extract_aadhar ("1234567890123".toList) = some ("1234 5678 9012".toList) := by rfl

/-! ### Claim C10 -/

/-- C10: in `extract_aadhar`, each gap between the three four-digit groups
holds at most one whitespace character (any whitespace, newline included):
every successful extraction exhibits a candidate whose two gaps have length
at most one, a candidate split by a single newline is accepted, and a
candidate with a two-space gap (and no other candidate) is rejected. -/
theorem c10_aadhar_gap_discipline :
    (∀ t s : Str, extract_aadhar t = some s →
      ∃ pre g1 w1 g2 w2 g3 post : Str,
        t = pre ++ (g1 ++ w1 ++ g2 ++ w2 ++ g3) ++ post ∧
        g1.length = 4 ∧ g2.length = 4 ∧ g3.length = 4 ∧
        (∀ c ∈ g1, isPyDigit c = true) ∧ (∀ c ∈ g2, isPyDigit c = true) ∧
        (∀ c ∈ g3, isPyDigit c = true) ∧
        w1.length ≤ 1 ∧ w2.length ≤ 1 ∧
        (∀ c ∈ w1, isPySpace c = true) ∧ (∀ c ∈ w2, isPySpace c = true)) ∧
    extract_aadhar ("1234\n5678 9012".toList) = some ("1234 5678 9012".toList) ∧
    extract_aadhar ("1234  5678 9012".toList) = none := by
  refine ⟨?_, by rfl, by rfl⟩
  intro t s h
  unfold extract_aadhar at h
  simp only [] at h
  split at h
  · exact absurd h (by simp)
  · next sp heq =>
    obtain ⟨pre, rest0, hpre, hmatch⟩ := searchAadhaar_split heq
    obtain ⟨g1, w1, g2, w2, g3, rest, hrest, _, hl1, hl2, hl3, hd1, hd2, hd3,
      hwl1, hwl2, hw1, hw2⟩ := matchAadhaarAt_spec hmatch
    exact ⟨pre, g1, w1, g2, w2, g3, rest,
      by rw [hpre, hrest]; simp only [List.append_assoc],
      hl1, hl2, hl3, hd1, hd2, hd3, hwl1, hwl2, hw1, hw2⟩

/-- Witness for the universal part of C10 at a concrete transcript. -/
theorem c10_aadhar_gap_discipline_witness :
    ∃ pre g1 w1 g2 w2 g3 post : Str,
      "111122223333".toList = pre ++ (g1 ++ w1 ++ g2 ++ w2 ++ g3) ++ post ∧
      g1.length = 4 ∧ g2.length = 4 ∧ g3.length = 4 ∧
      (∀ c ∈ g1, isPyDigit c = true) ∧ (∀ c ∈ g2, isPyDigit c = true) ∧
      (∀ c ∈ g3, isPyDigit c = true) ∧
      w1.length ≤ 1 ∧ w2.length ≤ 1 ∧
      (∀ c ∈ w1, isPySpace c = true) ∧ (∀ c ∈ w2, isPySpace c = true) :=
  c10_aadhar_gap_discipline.1 ("111122223333".toList) ("1111 2222 3333".toList) (by rfl)

/-! ### Claim C3 -/

/-- C3 counterexample: `extract_name` can return a name containing the label
word `Name` as a token (OCR noise `name5` survives label removal because of
the missing word boundary, and the digit is later replaced by a space), and
can return a name containing (Devanagari) digit characters. -/
theorem c3_counterexample :
    (extract_name ("ab name5 cd\n01/01/2000".toList) none = some ("Name Cd".toList) ∧
      "Name".toList ∈ splitWs ("Name Cd".toList)) ∧
    (extract_name ("क१ ख२".toList) none = some ("क१ ख२".toList) ∧
      Char.ofNat 0x967 ∈ "क१ ख२".toList ∧ isPyDigit (Char.ofNat 0x967) = true) := by
  refine ⟨⟨by rfl, by decide⟩, ⟨by rfl, by decide, by decide⟩⟩

/-- C3 amended: a non-null `extract_name` result has at least two
whitespace-separated tokens and contains no ASCII digit character;
Devanagari digits may appear inside Devanagari tokens, and label words may
survive as tokens when OCR noise glues digits to them. -/
theorem c3_name_output_shape {t : Str} {tc : Option Str} {s : Str}
    (h : extract_name t tc = some s) :
    2 ≤ (splitWs s).length ∧ ∀ c ∈ s, isAsciiDigit c = false := by
  obtain ⟨raw, hr⟩ := extract_name_from_clean h
  exact ⟨clean_tokens_ge2 hr, clean_no_ascii_digit hr⟩

/-- Witness for C3 (amended) at a concrete transcript. -/
theorem c3_name_output_shape_witness :
    2 ≤ (splitWs ("Pankaj Khanna".toList)).length ∧
      ∀ c ∈ "Pankaj Khanna".toList, isAsciiDigit c = false :=
  @c3_name_output_shape ("3 Pankaj Khanna\n01/02/1990".toList) none ("Pankaj Khanna".toList) (by rfl)

/-! ### Claim C4 -/

theorem extract_name_some_crop (t c : Str) :
    extract_name t (some c) =
      match (if c = [] then none
             else match find_by_dob_block c with
                  | some n => some n
                  | none => twoWordScan (cleanLines c)) with
      | some n => some n
      | none => match find_by_dob_block t with
                | some n => some n
                | none => twoWordScan (cleanLines t) := rfl

/-- C4: `extract_name` evaluates its four strategies in strict order -
DOB-anchored in crop, two-token in crop, DOB-anchored in full text,
two-token in full text - returning the first non-null result; in
particular, when the crop is present but both crop strategies fail and the
full-text DOB-anchored strategy succeeds, its result is returned. -/
theorem c4_strategy_order :
    (∀ t c : Str, c ≠ [] →
      extract_name t (some c) =
        orO (find_by_dob_block c)
          (orO (twoWordScan (cleanLines c))
            (orO (find_by_dob_block t) (twoWordScan (cleanLines t))))) ∧
    (∀ t c n : Str, c ≠ [] → find_by_dob_block c = none →
      twoWordScan (cleanLines c) = none → find_by_dob_block t = some n →
      extract_name t (some c) = some n) := by
  constructor
  · intro t c hc
    rw [extract_name_some_crop, if_neg hc]
    unfold orO
    cases find_by_dob_block c with
    | some n => rfl
    | none =>
      cases twoWordScan (cleanLines c) with
      | some n => rfl
      | none =>
        cases find_by_dob_block t with
        | some n => rfl
        | none => rfl
  · intro t c n hc h1 h2 h3
    rw [extract_name_some_crop, if_neg hc, h1, h2, h3]

/-- Witness for C4: crop present but pure noise, full text with a
DOB-anchored name. -/
theorem c4_strategy_order_witness :
    extract_name ("Ravi Kumar\n01/01/2000".toList) (some ("zzzz".toList)) =
      some ("Ravi Kumar".toList) :=
  c4_strategy_order.2 _ _ _ (by decide) (by rfl) (by rfl) (by rfl)

/-! ### Claim C7 -/

/-- C7 counterexample: on a transcript whose only line is
`"Name: RAVI KUMAR"` (and no date line), `extract_name` returns absent, not
`"Ravi Kumar"`: the two-token pattern requires whitespace right after the
first word, and the colon blocks the match, so the label-stripping cleaner
is never reached. -/
theorem c7_counterexample :
    extract_name ("Name: RAVI KUMAR".toList) none = none := by rfl

/-- C7 amended: for the transcript `"Name: RAVI KUMAR"` with no
date-adjacent line the extractor returns absent (the two-token strategy
cannot match a first token followed by a colon); the label is stripped only
on candidates that reach the cleaner, e.g. when the same line immediately
precedes a date line, where the DOB-anchored strategy yields
`"Ravi Kumar"`. -/
theorem c7_colon_blocks_two_token :
    extract_name ("Name: RAVI KUMAR".toList) none = none ∧
    extract_name ("Name: RAVI KUMAR\n01/01/1990".toList) none =
      some ("Ravi Kumar".toList) := by
  exact ⟨by rfl, by rfl⟩

/-! ### Claim C8 -/

/-- C8 counterexample: the DOB-anchored search is not decided by the first
date-matching line alone.  Here the line before the first date line
(`"1234"`) cleans to null, yet the strategy succeeds using the line before
the second date line. -/
theorem c8_counterexample :
    find_by_dob_block ("1234\n01/01/2000\nRavi Kumar\n02/02/2000".toList) =
      some ("Ravi Kumar".toList) ∧
    clean_extracted_name (prepCand ("1234".toList)) = none := by
  exact ⟨by rfl, by rfl⟩

theorem dobGo_some_cons (p l : Str) (rest : List Str) :
    dobGo (some p) (l :: rest) =
      if (searchDate l).isSome then
        match clean_extracted_name (prepCand p) with
        | some c => some c
        | none => dobGo (some l) rest
      else dobGo (some l) rest := rfl

theorem dobGo_none_cons (l : Str) (rest : List Str) :
    dobGo none (l :: rest) =
      if (searchDate l).isSome then dobGo (some l) rest
      else dobGo (some l) rest := rfl

theorem dobGo_some_findSome :
    ∀ (ls : List Str) (p : Str),
      dobGo (some p) ls = ((p :: ls).zip ls).findSome?
        (fun pq => if (searchDate pq.2).isSome
          then clean_extracted_name (prepCand pq.1) else none) := by
  intro ls
  induction ls with
  | nil => intro p; rfl
  | cons l rest ih =>
    intro p
    rw [dobGo_some_cons]
    rw [show ((p :: l :: rest).zip (l :: rest)) = (p, l) :: ((l :: rest).zip rest) from rfl]
    rw [List.findSome?_cons]
    have hproj : (if (searchDate (p, l).2).isSome = true
        then clean_extracted_name (prepCand (p, l).1) else none)
        = if (searchDate l).isSome = true
          then clean_extracted_name (prepCand p) else none := rfl
    rw [hproj]
    by_cases hd : (searchDate l).isSome = true
    · rw [if_pos hd, if_pos hd]
      cases hc : clean_extracted_name (prepCand p) with
      | some c => rfl
      | none => exact ih l
    · rw [if_neg hd, if_neg hd]
      exact ih l

/-- C8 amended: the DOB-anchored strategy scans the date-matching lines in
order and returns the first non-null cleaning of an immediately preceding
line; equivalently, `find_by_dob_block` equals the declarative
first-success scan over all (previous line, line) pairs. -/
theorem c8_dob_scan_all_dates (t : Str) : find_by_dob_block t = dobBlockSpec t := by
  unfold find_by_dob_block dobBlockSpec
  cases hls : cleanLines t with
  | nil => rfl
  | cons l rest =>
    have h1 : dobGo none (l :: rest) = dobGo (some l) rest := by
      rw [dobGo_none_cons]
      split <;> rfl
    rw [h1, dobGo_some_findSome]
    rfl

/-- Witness for C8 (amended) at a concrete transcript. -/
theorem c8_dob_scan_all_dates_witness :
    find_by_dob_block ("1234\n01/01/2000\nRavi Kumar\n02/02/2000".toList) =
      dobBlockSpec ("1234\n01/01/2000\nRavi Kumar\n02/02/2000".toList) :=
  c8_dob_scan_all_dates _

/-! ### Claim C9 -/

/-- C9 counterexample: with an absent (`None`) transcript argument the
extraction functions raise (`TypeError` from `re.search(p, None)`,
`AttributeError` from `None.splitlines()`) instead of returning absent. -/
theorem c9_counterexample :
    extract_aadhar_py none = Except.error PyErr.typeError ∧
    extract_dob_py none = Except.error PyErr.typeError ∧
    extract_name_py none (some ("zz".toList)) = Except.error PyErr.attributeError := by
  exact ⟨rfl, rfl, by rfl⟩

/-- C9 amended: on string transcripts the extractors are total and never
raise - absence of a match is a null result - and `extract_name` handles an
absent crop transcript; but an absent main transcript is an exception, not
a handled absence. -/
theorem c9_total_on_strings :
    (∀ (t : Str) (tc : Option Str),
      extract_name_py (some t) tc = Except.ok (extract_name t tc)) ∧
    (∀ t : Str, extract_aadhar_py (some t) = Except.ok (extract_aadhar t)) ∧
    (∀ t : Str, extract_dob_py (some t) = Except.ok (extract_dob t)) := by
  refine ⟨?_, fun t => rfl, fun t => rfl⟩
  intro t tc
  cases tc with
  | none => rfl
  | some c =>
    by_cases hc : c = []
    · subst hc; rfl
    · show (match (if c = [] then none
             else match find_by_dob_block c with
                  | some n => some n
                  | none => twoWordScan (cleanLines c)) with
        | some n => Except.ok (some n)
        | none => Except.ok (match find_by_dob_block t with
                  | some n => some n
                  | none => twoWordScan (cleanLines t))) = _
      rw [extract_name_some_crop, if_neg hc]
      cases (match find_by_dob_block c with
             | some n => some n
             | none => twoWordScan (cleanLines c)) with
      | some n => rfl
      | none => rfl

/-- Witness for C9 (amended) at concrete inputs. -/
theorem c9_total_on_strings_witness :
    extract_name_py (some ("Ravi Kumar\n01/01/2000".toList)) none =
      Except.ok (extract_name ("Ravi Kumar\n01/01/2000".toList) none) :=
  c9_total_on_strings.1 _ _

/-! ### Claim C6 -/

/-- C6 counterexample: the cleaner is not idempotent.  `"ab name5 cd"`
cleans to `"Name Cd"` (the label survives pass one because `name5` has no
word boundary, and the leading 2-letter token `ab` absorbs the garbage
drop), but cleaning `"Name Cd"` again removes the now-exposed label and the
single remaining token fails the two-token gate, giving null. -/
theorem c6_counterexample :
    clean_extracted_name ("ab name5 cd".toList) = some ("Name Cd".toList) ∧
    clean_extracted_name ("Name Cd".toList) = none := by
  exact ⟨by rfl, by rfl⟩

/-- C6 amended: the cleaner is idempotent on every output that starts with
a Latin or Devanagari letter, whose first token is not a 1-2 letter Latin
fragment, and on which label removal and field truncation act as the
identity (no embedded label or field tokens). -/
theorem c6_cleaner_idempotent {raw r : Str} (h : clean_extracted_name raw = some r)
    (h2 : headIsLetter r = true) (h3 : firstTokNotShort r = true)
    (h4 : removeLabels r = r) (h5 : truncGo false r = r) :
    clean_extracted_name r = some r := by
  obtain ⟨toks, hjoin, hsplit, hlen, hfacts⟩ := clean_output_tokens h
  have htokne : ∀ t ∈ toks, t ≠ [] := fun t ht => (hfacts t ht).1
  have htokfax : ∀ t ∈ toks, t ≠ [] ∧ ∀ c ∈ t, isPySpace c = false :=
    fun t ht => ⟨(hfacts t ht).1, fun c hc => ((hfacts t ht).2.1 c hc).1⟩
  have htoksne : toks ≠ [] := by
    intro hx
    rw [hx] at hlen
    simp at hlen
  have hrne : r ≠ [] := by
    rw [hjoin]
    exact joinSpace_ne_nil htoksne htokne
  have hs1 : pyStrip r = r := by
    rw [hjoin]
    exact pyStrip_joinSpace htokfax
  have hs2 : r.dropWhile (fun c => !(isLatin c || isDev c)) = r := by
    cases hr : r with
    | nil => rfl
    | cons c z =>
      rw [hr] at h2
      simp only [headIsLetter, List.headD_cons] at h2
      rw [List.dropWhile_cons, if_neg (by
        have hc : (isLatin c || isDev c) = true := h2
        simp [hc])]
  obtain ⟨t1, rest1, ht1⟩ : ∃ t1 rest1, toks = t1 :: rest1 := by
    cases toks with
    | nil => exact absurd rfl htoksne
    | cons a b => exact ⟨a, b, rfl⟩
  obtain ⟨t2, rest2, ht2⟩ : ∃ t2 rest2, rest1 = t2 :: rest2 := by
    cases rest1 with
    | nil => rw [ht1] at hlen; simp at hlen
    | cons a b => exact ⟨a, b, rfl⟩
  have hshort : isShortLatin t1 = false := by
    have h3' := h3
    unfold firstTokNotShort at h3'
    rw [hsplit, ht1] at h3'
    simp only [List.headD_cons, Bool.not_eq_true'] at h3'
    exact h3'
  have hs4 : dropShortFirst toks = toks := by
    rw [ht1, ht2]
    show (if isShortLatin t1 then t2 :: rest2 else t1 :: t2 :: rest2) = t1 :: t2 :: rest2
    rw [if_neg (by simp [hshort])]
  have hkeep : ∀ c ∈ r, keepC c = true := by
    intro c hc
    rw [hjoin] at hc
    rcases mem_joinSpace hc with rfl | ⟨t, ht, hct⟩
    · rfl
    · exact ((hfacts t ht).2.1 c hct).2
  have hs7 : sanitizeC r = r := sanitizeC_eq_self hkeep
  have hs8 : collapseWs r = r := by
    rw [hjoin]
    exact collapse_joinSpace toks htoksne htokfax
  have hmap : toks.map caseTok = toks := by
    rw [List.map_congr_left (fun t ht => (hfacts t ht).2.2)]
    exact List.map_id toks
  unfold clean_extracted_name
  simp only []
  rw [if_neg hrne]
  rw [hs1, hs2, h4, hsplit, hs4, ← hjoin, h5, hs1, hs7, hs8, hs1]
  rw [if_neg hrne]
  rw [hsplit, hmap, ← hjoin, hsplit]
  rw [if_neg (by omega)]

/-- Witness for C6 (amended): the output of cleaning `"3 Pankaj Khanna"`
satisfies the side conditions and cleans to itself. -/
theorem c6_cleaner_idempotent_witness :
    clean_extracted_name ("Pankaj Khanna".toList) = some ("Pankaj Khanna".toList) :=
  @c6_cleaner_idempotent ("3 Pankaj Khanna".toList) ("Pankaj Khanna".toList)
    (by rfl) (by rfl) (by rfl) (by rfl) (by rfl)
